import Mathlib

/-!
Verification of the commit-to-PR reconciliation and release-note pipeline of
git-glance (src/main.rs), via a shallow embedding in Lean 4.

Strings are modelled as `List Char`.  External collaborators (the git
repository, the gh PR-lookup tool, the summarization oracle) are modelled as
explicit inputs: a commit's metadata, the raw stdout of the gh call, and the
oracle's raw text response.  The on-disk cache (.git/glance/commits and
.git/glance/prs, one JSON file per key) is modelled as two association lists
keyed by id; a fresh write is consed on the front and lookups take the first
match, so the newest write wins, matching file overwrite semantics.

JSON handling in the source goes through serde_json; here a small executable
JSON parser/serializer over the same value grammar plays that role
(simplifications: numbers are integers, \u escapes and control-character
escaping are omitted — no claim under study involves them; duplicate object
keys are resolved to the first occurrence).  Rust panics (unwrap on a missing
field, string slicing at a non-boundary byte index) are modelled as a
distinguished outcome, never silently absorbed.
-/

set_option maxRecDepth 4000

namespace GitGlance

/-! ### Characters and whitespace -/

def isWs (c : Char) : Bool := c = ' ' || c = '\n' || c = '\t' || c = '\r'

def skipWs : List Char → List Char
  | [] => []
  | c :: r => if isWs c then skipWs r else c :: r

theorem skipWs_nil : skipWs [] = [] := rfl

theorem skipWs_cons_ws (c : Char) (s : List Char) (h : isWs c = true) :
    skipWs (c :: s) = skipWs s := by
  simp [skipWs, h]

theorem skipWs_cons_not_ws (c : Char) (s : List Char) (h : isWs c = false) :
    skipWs (c :: s) = c :: s := by
  simp [skipWs, h]

theorem skipWs_append_of_ne (s t : List Char) (h : skipWs s ≠ []) :
    skipWs (s ++ t) = skipWs s ++ t := by
  induction s with
  | nil => exact absurd rfl h
  | cons c r ih =>
    by_cases hc : isWs c = true
    · have h1 : skipWs (c :: r) = skipWs r := skipWs_cons_ws c r hc
      have h2 : skipWs (c :: (r ++ t)) = skipWs (r ++ t) := skipWs_cons_ws c _ hc
      rw [List.cons_append, h2, h1]
      exact ih (by rw [h1] at h; exact h)
    · have hc' : isWs c = false := by simpa using hc
      rw [List.cons_append, skipWs_cons_not_ws c _ hc', skipWs_cons_not_ws c _ hc',
        List.cons_append]

/-! ### Rust str::replace over character lists

`replaceAll pat rep s` replaces every non-overlapping occurrence of `pat`
in `s` by `rep`, scanning left to right, as Rust's `str::replace` does.
The source only ever uses nonempty patterns; an empty pattern is returned
unchanged to keep the function total. -/

def replaceAllF (pat rep : List Char) : Nat → List Char → List Char
  | _, [] => []
  | 0, c :: r => c :: r
  | n + 1, c :: r =>
    if pat.isPrefixOf (c :: r) then rep ++ replaceAllF pat rep n ((c :: r).drop pat.length)
    else c :: replaceAllF pat rep n r

def replaceAll (pat rep : List Char) (s : List Char) : List Char :=
  replaceAllF pat rep s.length s

theorem replaceAllF_fuel (pat rep : List Char) (hp : pat ≠ []) :
    ∀ (n : Nat) (s : List Char) (m : Nat), s.length ≤ n → s.length ≤ m →
      replaceAllF pat rep n s = replaceAllF pat rep m s := by
  intro n
  induction n with
  | zero =>
    intro s m hn _
    have : s = [] := List.eq_nil_of_length_eq_zero (Nat.le_zero.mp hn)
    subst this
    cases m <;> rfl
  | succ n ih =>
    intro s m hn hm
    cases s with
    | nil => cases m <;> rfl
    | cons c r =>
      have hm1 : 1 ≤ m := by
        simp only [List.length_cons] at hm
        omega
      obtain ⟨m', rfl⟩ : ∃ m', m = m' + 1 := ⟨m - 1, by omega⟩
      simp only [replaceAllF]
      by_cases h : pat.isPrefixOf (c :: r) = true
      · simp only [h, if_pos]
        have hplen : 1 ≤ pat.length := by
          cases pat with
          | nil => exact absurd rfl hp
          | cons a b => simp
        have hd : ((c :: r).drop pat.length).length ≤ n := by
          simp only [List.length_drop, List.length_cons]
          simp only [List.length_cons] at hn
          omega
        have hd' : ((c :: r).drop pat.length).length ≤ m' := by
          simp only [List.length_drop, List.length_cons]
          simp only [List.length_cons] at hm
          omega
        rw [ih _ m' hd hd']
      · simp only [h, if_neg, Bool.false_eq_true, not_false_iff]
        have hr : r.length ≤ n := by
          simp only [List.length_cons] at hn
          omega
        have hr' : r.length ≤ m' := by
          simp only [List.length_cons] at hm
          omega
        rw [ih _ m' hr hr']

theorem replaceAll_nil (pat rep : List Char) : replaceAll pat rep [] = [] := rfl

theorem replaceAll_cons_no_match (pat rep : List Char) (c : Char) (r : List Char)
    (h : pat.isPrefixOf (c :: r) = false) :
    replaceAll pat rep (c :: r) = c :: replaceAll pat rep r := by
  unfold replaceAll
  simp only [List.length_cons, replaceAllF, h, Bool.false_eq_true, if_neg, not_false_iff]

theorem replaceAll_cons_match (pat rep : List Char) (c : Char) (r : List Char)
    (hp : pat ≠ []) (h : pat.isPrefixOf (c :: r) = true) :
    replaceAll pat rep (c :: r) = rep ++ replaceAll pat rep ((c :: r).drop pat.length) := by
  unfold replaceAll
  simp only [List.length_cons, replaceAllF, h, if_pos]
  congr 1
  have hplen : 1 ≤ pat.length := by
    cases pat with
    | nil => exact absurd rfl hp
    | cons a b => simp
  apply replaceAllF_fuel pat rep hp
  · simp only [List.length_drop, List.length_cons]
    omega
  · exact Nat.le_refl _

/-! ### JSON values

The value grammar handled by serde_json, with integers in place of full
decimal numbers (no claim involves fractional numbers). -/

inductive Json where
  | null
  | jbool (b : Bool)
  | jnum (n : Int)
  | jstr (s : List Char)
  | jarr (elems : List Json)
  | jobj (fields : List (List Char × Json))
deriving Inhabited

/-- The comparison with Value::Null performed at main.rs line 445. -/
def isNull : Json → Bool
  | .null => true
  | _ => false

def unescapeChar (c : Char) : Option Char :=
  if c = '"' then some '"'
  else if c = '\\' then some '\\'
  else if c = '/' then some '/'
  else if c = 'n' then some '\n'
  else if c = 't' then some '\t'
  else if c = 'r' then some '\r'
  else none

/-- Parse the body of a JSON string, after the opening quote. -/
def parseStrBody : List Char → Option (List Char × List Char)
  | [] => none
  | c :: r =>
    if c = '"' then some ([], r)
    else if c = '\\' then
      match r with
      | [] => none
      | e :: r2 =>
        match unescapeChar e, parseStrBody r2 with
        | some u, some (out, rest) => some (u :: out, rest)
        | _, _ => none
    else
      match parseStrBody r with
      | some (out, rest) => some (c :: out, rest)
      | none => none

def digitsToNat (ds : List Char) : Nat :=
  ds.foldl (fun a c => a * 10 + (c.toNat - '0'.toNat)) 0

mutual

/-- Fuel-indexed recursive-descent parser for a JSON value, following the
token structure serde_json accepts (whitespace between tokens, the five
value forms, integers).  Returns the value and the unconsumed rest. -/
def parseVal : Nat → List Char → Option (Json × List Char)
  | 0, _ => none
  | _ + 1, [] => none
  | fuel + 1, c :: r =>
    if c = 'n' then
      match r with
      | 'u' :: 'l' :: 'l' :: r2 => some (.null, r2)
      | _ => none
    else if c = 't' then
      match r with
      | 'r' :: 'u' :: 'e' :: r2 => some (.jbool true, r2)
      | _ => none
    else if c = 'f' then
      match r with
      | 'a' :: 'l' :: 's' :: 'e' :: r2 => some (.jbool false, r2)
      | _ => none
    else if c = '"' then
      match parseStrBody r with
      | some (out, rest) => some (.jstr out, rest)
      | none => none
    else if c = '[' then
      match skipWs r with
      | ']' :: r2 => some (.jarr [], r2)
      | r2 =>
        match parseVal fuel r2 with
        | some (v, r3) =>
          match parseArrTail fuel r3 with
          | some (vs, r4) => some (.jarr (v :: vs), r4)
          | none => none
        | none => none
    else if c = '{' then
      match skipWs r with
      | '}' :: r2 => some (.jobj [], r2)
      | r2 =>
        match parseField fuel r2 with
        | some (f, r3) =>
          match parseObjTail fuel r3 with
          | some (fs, r4) => some (.jobj (f :: fs), r4)
          | none => none
        | none => none
    else if c = '-' then
      match r with
      | [] => none
      | d :: r2 =>
        if d.isDigit then
          some (.jnum (-(digitsToNat (d :: r2.takeWhile Char.isDigit) : Int)),
            r2.dropWhile Char.isDigit)
        else none
    else if c.isDigit then
      some (.jnum (digitsToNat (c :: r.takeWhile Char.isDigit) : Int),
        r.dropWhile Char.isDigit)
    else none

/-- Remaining elements of an array after the first: comma-separated, ended by a bracket. -/
def parseArrTail : Nat → List Char → Option (List Json × List Char)
  | 0, _ => none
  | fuel + 1, s =>
    match skipWs s with
    | ']' :: r => some ([], r)
    | ',' :: r =>
      match parseVal fuel (skipWs r) with
      | some (v, r2) =>
        match parseArrTail fuel r2 with
        | some (vs, r3) => some (v :: vs, r3)
        | none => none
      | none => none
    | _ => none

/-- One key-value member of an object. -/
def parseField : Nat → List Char → Option ((List Char × Json) × List Char)
  | 0, _ => none
  | fuel + 1, s =>
    match s with
    | '"' :: r =>
      match parseStrBody r with
      | some (key, r2) =>
        match skipWs r2 with
        | ':' :: r3 =>
          match parseVal fuel (skipWs r3) with
          | some (v, r4) => some ((key, v), r4)
          | none => none
        | _ => none
      | none => none
    | _ => none

/-- Remaining members of an object after the first. -/
def parseObjTail : Nat → List Char → Option (List (List Char × Json) × List Char)
  | 0, _ => none
  | fuel + 1, s =>
    match skipWs s with
    | '}' :: r => some ([], r)
    | ',' :: r =>
      match parseField fuel (skipWs r) with
      | some (f, r2) =>
        match parseObjTail fuel r2 with
        | some (fs, r3) => some (f :: fs, r3)
        | none => none
      | none => none
    | _ => none

end

/-- Whitespace trimmed from both ends of the input. -/
def trimWs (s : List Char) : List Char := (skipWs (skipWs s).reverse).reverse

/-- serde_json::from_str: a single JSON value with surrounding whitespace
permitted and nothing else before the end of input.  The surrounding
whitespace is trimmed up front; a leftover after the value (other than
whitespace, which trimming already removed from the end) is an error. -/
def parseJson (s : List Char) : Option Json :=
  let t := trimWs s
  match parseVal (t.length + 1) t with
  | some (v, r) => if skipWs r = [] then some v else none
  | none => none

theorem trimWs_append_nl (s : List Char) : trimWs (s ++ ['\n']) = trimWs s := by
  unfold trimWs
  by_cases h : skipWs s = []
  · have h1 : skipWs (s ++ ['\n']) = [] := by
      induction s with
      | nil => rfl
      | cons c r ih =>
        rw [skipWs] at h
        by_cases hc : isWs c = true
        · simp only [hc, if_pos] at h
          rw [List.cons_append, skipWs_cons_ws c _ hc]
          exact ih h
        · simp [hc] at h
    rw [h, h1]
  · rw [skipWs_append_of_ne s ['\n'] h, List.reverse_append]
    have : isWs '\n' = true := by decide
    simp only [List.reverse_singleton, List.singleton_append]
    rw [skipWs_cons_ws _ _ this]

theorem trimWs_cons_nl (s : List Char) : trimWs ('\n' :: s) = trimWs s := by
  unfold trimWs
  rw [skipWs_cons_ws _ _ (by decide)]

theorem parseJson_append_nl (s : List Char) : parseJson (s ++ ['\n']) = parseJson s := by
  unfold parseJson
  rw [trimWs_append_nl]

theorem parseJson_cons_nl (s : List Char) : parseJson ('\n' :: s) = parseJson s := by
  unfold parseJson
  rw [trimWs_cons_nl]

/-! ### Facts about stripping fence markers -/

theorem isPrefixOf_cons_ne (p c : Char) (pr r : List Char) (h : p ≠ c) :
    (p :: pr).isPrefixOf (c :: r) = false := by
  simp [List.isPrefixOf, h]

theorem replaceAll_append_match (pat rep extra : List Char) (hp : pat ≠ []) :
    replaceAll pat rep (pat ++ extra) = rep ++ replaceAll pat rep extra := by
  cases pat with
  | nil => exact absurd rfl hp
  | cons p pr =>
    have hpre : (p :: pr).isPrefixOf (p :: (pr ++ extra)) = true := by
      rw [List.isPrefixOf_iff_prefix]
      exact List.prefix_append (p :: pr) extra
    have := replaceAll_cons_match (p :: pr) rep p (pr ++ extra) hp hpre
    simp only [List.cons_append] at this ⊢
    rw [this, List.length_cons, List.drop_succ_cons, List.drop_left]

/-- The two patterns the source strips, and the wrappers the oracle may use. -/
def jsonPat : List Char := "```json\n".toList

def fencePat : List Char := "```".toList

def closeFence : List Char := "\n```".toList

/-- An oracle response wrapped in a fenced code block with the json language tag. -/
def jsonWrap (body : List Char) : List Char := jsonPat ++ body ++ closeFence

/-- An oracle response wrapped in a fenced code block with no language tag. -/
def plainWrap (body : List Char) : List Char := "```\n".toList ++ body ++ closeFence

/-- An oracle response wrapped in a fenced code block with an arbitrary language tag. -/
def langWrap (lang body : List Char) : List Char :=
  fencePat ++ lang ++ '\n' :: (body ++ closeFence)

theorem isPrefixOf_jsonPat_ne (c : Char) (r : List Char) (h : c ≠ '`') :
    jsonPat.isPrefixOf (c :: r) = false :=
  isPrefixOf_cons_ne '`' c "``json\n".toList r (Ne.symm h)

theorem isPrefixOf_fencePat_ne (c : Char) (r : List Char) (h : c ≠ '`') :
    fencePat.isPrefixOf (c :: r) = false :=
  isPrefixOf_cons_ne '`' c "``".toList r (Ne.symm h)

/-- The seven characters of an opening json fence without its newline; the
only string whose presence at the end of the response body could let a
fence-pattern match span the boundary into the closing fence (the closing
fence starts with a newline, which completes exactly this prefix of the
json fence pattern).  No JSON document can end with it (a JSON value ends
with a quote, bracket, brace, digit, the l of null or the e of a boolean,
or trailing whitespace), as proved below from the parser. -/
def fence7 : List Char := "```json".toList

theorem isPrefixOf_length_le (pat s : List Char) (h : pat.isPrefixOf s = true) :
    pat.length ≤ s.length := by
  rw [List.isPrefixOf_iff_prefix] at h
  exact h.length_le

theorem isPrefixOf_false_of_length_lt (pat s : List Char) (h : s.length < pat.length) :
    pat.isPrefixOf s = false := by
  by_contra hne
  have := isPrefixOf_length_le pat s (by simpa using hne)
  omega

theorem isPrefixOf_append_left (pat s t : List Char) (h : pat.length ≤ s.length) :
    pat.isPrefixOf (s ++ t) = pat.isPrefixOf s := by
  induction pat generalizing s with
  | nil => simp [List.isPrefixOf]
  | cons p pr ih =>
    cases s with
    | nil => simp at h
    | cons a as =>
      simp only [List.cons_append, List.isPrefixOf, List.append_eq]
      rw [ih as (by simpa using h)]

/-- Appending t to s neither creates nor destroys a pattern match at any
nonempty suffix position of s. -/
def SafeAppend (pat s t : List Char) : Prop :=
  ∀ s', s' <:+ s → s' ≠ [] → pat.isPrefixOf (s' ++ t) = pat.isPrefixOf s'

theorem safeAppend_of_suffix (pat s t s₂ : List Char) (h : SafeAppend pat s t)
    (hs : s₂ <:+ s) : SafeAppend pat s₂ t :=
  fun s' h1 h2 => h s' (h1.trans hs) h2

/-- Under the safety condition, str::replace distributes over append. -/
theorem replaceAll_append_of_safe (pat rep : List Char) (hp : pat ≠ []) :
    ∀ (n : Nat) (s t : List Char), s.length ≤ n → SafeAppend pat s t →
      replaceAll pat rep (s ++ t) = replaceAll pat rep s ++ replaceAll pat rep t := by
  intro n
  induction n with
  | zero =>
    intro s t hn _
    have : s = [] := List.eq_nil_of_length_eq_zero (Nat.le_zero.mp hn)
    subst this
    simp [replaceAll_nil]
  | succ n ih =>
    intro s t hn hsafe
    cases s with
    | nil => simp [replaceAll_nil]
    | cons c r =>
      have hkey := hsafe (c :: r) (List.suffix_refl _) (by simp)
      by_cases hm : pat.isPrefixOf (c :: r) = true
      · have hm2 : pat.isPrefixOf (c :: (r ++ t)) = true := by
          rw [hm] at hkey
          simpa using hkey
        have hlen : pat.length ≤ (c :: r).length := isPrefixOf_length_le _ _ hm
        have hplen : 1 ≤ pat.length := by
          cases pat with
          | nil => exact absurd rfl hp
          | cons a b => simp
        rw [List.cons_append, replaceAll_cons_match pat rep c (r ++ t) hp hm2,
          replaceAll_cons_match pat rep c r hp hm]
        have hdrop : (c :: (r ++ t)).drop pat.length = (c :: r).drop pat.length ++ t := by
          rw [show c :: (r ++ t) = (c :: r) ++ t by simp]
          exact List.drop_append_of_le_length hlen
        rw [hdrop, List.append_assoc]
        congr 1
        refine ih _ t ?_ (safeAppend_of_suffix pat (c :: r) t _ hsafe (List.drop_suffix _ _))
        simp only [List.length_drop, List.length_cons]
        simp only [List.length_cons] at hn
        omega
      · have hm' : pat.isPrefixOf (c :: r) = false := by
          cases hv : pat.isPrefixOf (c :: r)
          · rfl
          · exact absurd hv hm
        have hm2 : pat.isPrefixOf (c :: (r ++ t)) = false := by
          rw [hm'] at hkey
          simpa using hkey
        rw [List.cons_append, replaceAll_cons_no_match pat rep c (r ++ t) hm2,
          replaceAll_cons_no_match pat rep c r hm',
          ih r t (by simp only [List.length_cons] at hn; omega)
            (safeAppend_of_suffix pat (c :: r) t r hsafe (List.suffix_cons c r))]
        simp

/-- The closing fence starts with a newline, so appending it can never
complete a partial match of the all-backtick fence pattern. -/
theorem fencePat_safe_closeFence :
    ∀ s' : List Char, s' ≠ [] →
      fencePat.isPrefixOf (s' ++ closeFence) = fencePat.isPrefixOf s' := by
  intro s' hne
  match s' with
  | [a] =>
    show fencePat.isPrefixOf (a :: closeFence) = fencePat.isPrefixOf [a]
    show (('`' : Char) :: '`' :: '`' :: []).isPrefixOf (a :: '\n' :: '`' :: '`' :: '`' :: []) =
      (('`' : Char) :: '`' :: '`' :: []).isPrefixOf [a]
    simp [List.isPrefixOf]
  | [a, b] =>
    show (('`' : Char) :: '`' :: '`' :: []).isPrefixOf
        (a :: b :: '\n' :: '`' :: '`' :: '`' :: []) =
      (('`' : Char) :: '`' :: '`' :: []).isPrefixOf [a, b]
    simp [List.isPrefixOf]
  | a :: b :: d :: rest =>
    exact isPrefixOf_append_left fencePat (a :: b :: d :: rest) closeFence (by simp [fencePat])

/-- The only way the json fence pattern can match across the boundary into
the closing fence is when everything before the boundary is exactly the
seven opening-fence characters. -/
theorem jsonPat_prefix_boundary (k : Nat) (hk : k < 8) (rest : List Char)
    (h2 : jsonPat.drop k ++ rest = closeFence) : k = 7 := by
  have hne : jsonPat.drop k ≠ [] := by
    intro hnil
    have : (jsonPat.drop k).length = 0 := by rw [hnil]; rfl
    rw [List.length_drop] at this
    have h8 : jsonPat.length = 8 := rfl
    omega
  obtain ⟨d, ds, hd⟩ := List.exists_cons_of_ne_nil hne
  have hdv : jsonPat[k]? = some d := by
    have := List.head?_drop jsonPat k
    rw [hd] at this
    exact this.symm
  have hdn : d = '\n' := by
    rw [hd] at h2
    have : d :: (ds ++ rest) = closeFence := by simpa using h2
    have hcf : closeFence = '\n' :: "```".toList := rfl
    rw [hcf] at this
    exact (List.cons.injEq _ _ _ _).mp this |>.1
  rw [hdn] at hdv
  interval_cases k <;> first
    | rfl
    | exact absurd hdv (by decide)

theorem jsonPat_isPrefixOf_short (s' : List Char) (hlen : s'.length < 8)
    (h : jsonPat.isPrefixOf (s' ++ closeFence) = true) : s' = fence7 := by
  rw [List.isPrefixOf_iff_prefix] at h
  obtain ⟨rest, hr⟩ := h
  have htk : jsonPat.take s'.length ++ (jsonPat.drop s'.length ++ rest) =
      s' ++ closeFence := by
    rw [← List.append_assoc, List.take_append_drop]
    exact hr
  have h8 : jsonPat.length = 8 := rfl
  have hlen2 : (jsonPat.take s'.length).length = s'.length := by
    rw [List.length_take]
    omega
  obtain ⟨h1, h2⟩ := List.append_inj htk hlen2
  have hk7 : s'.length = 7 := jsonPat_prefix_boundary s'.length hlen rest h2
  rw [← h1, hk7]
  rfl

/-- Whenever the body does not end with the seven opening-fence
characters, appending the closing fence is safe for the json pattern. -/
theorem jsonPat_safe_closeFence (body : List Char) (hnf : ¬ fence7 <:+ body) :
    SafeAppend jsonPat body closeFence := by
  intro s' hsuf hne
  by_cases hlen : 8 ≤ s'.length
  · have h8 : jsonPat.length = 8 := rfl
    exact isPrefixOf_append_left jsonPat s' closeFence (by omega)
  · push_neg at hlen
    have h8 : jsonPat.length = 8 := rfl
    rw [isPrefixOf_false_of_length_lt jsonPat s' (by omega)]
    by_contra hlhs
    have hlhs' : jsonPat.isPrefixOf (s' ++ closeFence) = true := by
      cases hv : jsonPat.isPrefixOf (s' ++ closeFence) with
      | true => rfl
      | false => rw [hv] at hlhs; exact absurd rfl hlhs
    exact hnf (jsonPat_isPrefixOf_short s' hlen hlhs' ▸ hsuf)

theorem replaceAll_jsonPat_body_close (body : List Char) (hnf : ¬ fence7 <:+ body) :
    replaceAll jsonPat [] (body ++ closeFence) =
      replaceAll jsonPat [] body ++ closeFence := by
  rw [replaceAll_append_of_safe jsonPat [] (by decide) body.length body closeFence
    (Nat.le_refl _) (jsonPat_safe_closeFence body hnf)]
  rfl

theorem replaceAll_fencePat_any_close (X : List Char) :
    replaceAll fencePat [] (X ++ closeFence) = replaceAll fencePat [] X ++ ['\n'] := by
  rw [replaceAll_append_of_safe fencePat [] (by decide) X.length X closeFence
    (Nat.le_refl _) (fun s' _ hne => fencePat_safe_closeFence s' hne)]
  rfl

/-! ### Accessors mirroring serde_json's Value API -/

/-- Value indexing by array position: Null when out of bounds or not an array. -/
def jIdx (j : Json) (n : Nat) : Json :=
  match j with
  | .jarr xs => xs.getD n .null
  | _ => .null

def findKey (fields : List (List Char × Json)) (k : List Char) : Json :=
  match fields with
  | [] => .null
  | (key, v) :: rest => if key = k then v else findKey rest k

/-- Value indexing by object key: Null when the key is absent or the value
is not an object. -/
def jKey (j : Json) (k : List Char) : Json :=
  match j with
  | .jobj fs => findKey fs k
  | _ => .null

/-- Value::as_str. -/
def asStr (j : Json) : Option (List Char) :=
  match j with
  | .jstr s => some s
  | _ => none

/-- Value::as_array. -/
def asArr (j : Json) : Option (List Json) :=
  match j with
  | .jarr xs => some xs
  | _ => none

/-! ### Serialization (Value::to_string) -/

def escapeChar (c : Char) : List Char :=
  if c = '"' then ['\\', '"']
  else if c = '\\' then ['\\', '\\']
  else if c = '\n' then ['\\', 'n']
  else if c = '\t' then ['\\', 't']
  else if c = '\r' then ['\\', 'r']
  else [c]

def escapeStr (s : List Char) : List Char := (s.map escapeChar).flatten

mutual

def jToString : Json → List Char
  | .null => "null".toList
  | .jbool true => "true".toList
  | .jbool false => "false".toList
  | .jnum n => (toString n).toList
  | .jstr s => '"' :: (escapeStr s ++ ['"'])
  | .jarr xs => '[' :: (jArrToString xs ++ [']'])
  | .jobj fs => '{' :: (jObjToString fs ++ ['}'])

def jArrToString : List Json → List Char
  | [] => []
  | [x] => jToString x
  | x :: y :: xs => jToString x ++ ',' :: jArrToString (y :: xs)

def jObjToString : List (List Char × Json) → List Char
  | [] => []
  | [(k, v)] => '"' :: escapeStr k ++ '"' :: ':' :: jToString v
  | (k, v) :: f :: fs =>
    ('"' :: escapeStr k ++ '"' :: ':' :: jToString v) ++ ',' :: jObjToString (f :: fs)

end

/-- The response clean-up performed by pr_to_tagged_summary before JSON
parsing (main.rs line 340): first every occurrence of the string
made of three backticks followed by json and a newline is removed, then
every occurrence of three backticks. -/
def stripFences (response : List Char) : List Char :=
  replaceAll fencePat [] (replaceAll jsonPat [] response)

/-- Stripping a json-tagged fenced wrapping leaves the stripped body plus
the final newline of the closing fence, for every body not ending in the
seven opening-fence characters — in particular for every JSON body. -/
theorem stripFences_jsonWrap_eq (body : List Char) (hnf : ¬ fence7 <:+ body) :
    stripFences (jsonWrap body) = stripFences body ++ ['\n'] := by
  unfold stripFences jsonWrap
  rw [List.append_assoc, replaceAll_append_match jsonPat [] _ (by decide),
    List.nil_append, replaceAll_jsonPat_body_close body hnf,
    replaceAll_fencePat_any_close]

/-- Stripping an untagged fenced wrapping leaves a leading newline, the
stripped body, and the closing fence's newline, under the same condition. -/
theorem stripFences_plainWrap_eq (body : List Char) (hnf : ¬ fence7 <:+ body) :
    stripFences (plainWrap body) = '\n' :: (stripFences body ++ ['\n']) := by
  unfold stripFences plainWrap
  have e1 : "```\n".toList ++ body ++ closeFence =
      '`' :: '`' :: '`' :: '\n' :: (body ++ closeFence) := by
    simp
  rw [e1]
  have np : ∀ X : List Char, jsonPat.isPrefixOf ('`' :: X) = false →
      replaceAll jsonPat [] ('`' :: X) = '`' :: replaceAll jsonPat [] X :=
    fun X hX => replaceAll_cons_no_match jsonPat [] '`' X hX
  have h0 : jsonPat.isPrefixOf ('`' :: '`' :: '`' :: '\n' :: (body ++ closeFence)) = false := by
    show ('`' :: '`' :: '`' :: 'j' :: "son\n".toList).isPrefixOf _ = false
    simp [List.isPrefixOf]
  have h1 : jsonPat.isPrefixOf ('`' :: '`' :: '\n' :: (body ++ closeFence)) = false := by
    show ('`' :: '`' :: '`' :: 'j' :: "son\n".toList).isPrefixOf _ = false
    simp [List.isPrefixOf]
  have h2 : jsonPat.isPrefixOf ('`' :: '\n' :: (body ++ closeFence)) = false := by
    show ('`' :: '`' :: '`' :: 'j' :: "son\n".toList).isPrefixOf _ = false
    simp [List.isPrefixOf]
  have h3 : jsonPat.isPrefixOf ('\n' :: (body ++ closeFence)) = false :=
    isPrefixOf_jsonPat_ne '\n' _ (by decide)
  rw [np _ h0, np _ h1, np _ h2,
    replaceAll_cons_no_match jsonPat [] '\n' _ h3,
    replaceAll_jsonPat_body_close body hnf]
  have e2 : ('`' : Char) :: '`' :: '`' :: '\n' :: (replaceAll jsonPat [] body ++ closeFence) =
      fencePat ++ ('\n' :: (replaceAll jsonPat [] body ++ closeFence)) := by
    simp [fencePat]
  rw [e2, replaceAll_append_match fencePat [] _ (by decide), List.nil_append,
    replaceAll_cons_no_match fencePat [] '\n' _ (isPrefixOf_fencePat_ne '\n' _ (by decide)),
    replaceAll_fencePat_any_close]

/-! ### What a successful parse consumes

Used below to show that no successfully parsed document can end with the
seven opening-fence characters: every JSON value ends in a quote, bracket,
brace, digit, or the final letter of a keyword — never the letter n that
ends the opening fence. -/

theorem skipWs_decomp (s : List Char) :
    ∃ w, s = w ++ skipWs s ∧ ∀ c ∈ w, isWs c = true := by
  induction s with
  | nil => exact ⟨[], rfl, by simp⟩
  | cons c r ih =>
    by_cases hc : isWs c = true
    · obtain ⟨w, hw, hws⟩ := ih
      refine ⟨c :: w, ?_, ?_⟩
      · rw [skipWs_cons_ws c r hc, List.cons_append, ← hw]
      · intro x hx
        rcases List.mem_cons.mp hx with rfl | hx'
        · exact hc
        · exact hws x hx'
    · have hc' : isWs c = false := by
        cases hv : isWs c
        · rfl
        · exact absurd hv hc
      exact ⟨[], by rw [skipWs_cons_not_ws c r hc']; rfl, by simp⟩

theorem skipWs_eq_nil_all_ws : ∀ s : List Char, skipWs s = [] → ∀ c ∈ s, isWs c = true := by
  intro s
  induction s with
  | nil => intro _ c hc; exact absurd hc (List.not_mem_nil c)
  | cons a r ih =>
    intro h c hc
    by_cases ha : isWs a = true
    · rw [skipWs_cons_ws a r ha] at h
      rcases List.mem_cons.mp hc with rfl | hc'
      · exact ha
      · exact ih h c hc'
    · have ha' : isWs a = false := by
        cases hv : isWs a
        · rfl
        · exact absurd hv ha
      rw [skipWs_cons_not_ws a r ha'] at h
      cases h

theorem skipWs_head_not_ws : ∀ (s : List Char) (c : Char) (y : List Char),
    skipWs s = c :: y → isWs c = false := by
  intro s
  induction s with
  | nil => intro c y h; cases h
  | cons a r ih =>
    intro c y h
    by_cases ha : isWs a = true
    · rw [skipWs_cons_ws a r ha] at h
      exact ih c y h
    · have ha' : isWs a = false := by
        cases hv : isWs a
        · rfl
        · exact absurd hv ha
      rw [skipWs_cons_not_ws a r ha'] at h
      obtain ⟨rfl, -⟩ := (List.cons.injEq _ _ _ _).mp h
      exact ha'

/-- A successful string-body parse consumes up to and including the closing
quote. -/
theorem parseStrBody_consumed : ∀ (n : Nat) (s out rest : List Char), s.length ≤ n →
    parseStrBody s = some (out, rest) → ∃ pre, s = pre ++ '"' :: rest := by
  intro n
  induction n with
  | zero =>
    intro s out rest hn h
    have : s = [] := List.eq_nil_of_length_eq_zero (Nat.le_zero.mp hn)
    subst this
    cases h
  | succ n ih =>
    intro s out rest hn h
    cases s with
    | nil => cases h
    | cons c r =>
      rw [parseStrBody.eq_def] at h
      dsimp only at h
      split_ifs at h with hq hb
      · obtain ⟨-, hrest⟩ := (Prod.mk.injEq _ _ _ _).mp (Option.some.injEq _ _ |>.mp h)
        exact ⟨[], by rw [hq, hrest]; rfl⟩
      · split at h
        · cases h
        · rename_i e r2
          split at h
          · rename_i u o2 rest2 hu hp
            obtain ⟨-, hrest⟩ := (Prod.mk.injEq _ _ _ _).mp (Option.some.injEq _ _ |>.mp h)
            obtain ⟨p, hp2⟩ := ih r2 o2 rest2
              (by simp only [List.length_cons] at hn ⊢; omega) hp
            subst hrest
            exact ⟨c :: e :: p, by rw [hp2]; simp⟩
          · cases h
      · split at h
        · rename_i o2 rest2 hp
          obtain ⟨-, hrest⟩ := (Prod.mk.injEq _ _ _ _).mp (Option.some.injEq _ _ |>.mp h)
          obtain ⟨p, hp2⟩ := ih r o2 rest2
            (by simp only [List.length_cons] at hn; omega) hp
          subst hrest
          exact ⟨c :: p, by rw [hp2]; simp⟩
        · cases h

/-- The last character a number parse consumes is a digit. -/
theorem digits_consumed (d : Char) (r2 : List Char) (hd : d.isDigit = true) :
    ∃ pre c, d :: r2 = pre ++ c :: r2.dropWhile Char.isDigit ∧ c ≠ 'n' := by
  cases hds : r2.takeWhile Char.isDigit with
  | nil =>
    refine ⟨[], d, ?_, ?_⟩
    · have : r2.takeWhile Char.isDigit ++ r2.dropWhile Char.isDigit = r2 :=
        List.takeWhile_append_dropWhile Char.isDigit r2
      rw [hds] at this
      simp only [List.nil_append] at this
      rw [List.nil_append, this]
    · intro he
      have hn : ('n').isDigit = false := by decide
      rw [he, hn] at hd
      cases hd
  | cons e0 es =>
    have hne : r2.takeWhile Char.isDigit ≠ [] := by rw [hds]; simp
    obtain ⟨lft, e, hL⟩ : ∃ lft e, r2.takeWhile Char.isDigit = lft ++ [e] :=
      ⟨_, _, (List.dropLast_append_getLast hne).symm⟩
    refine ⟨d :: lft, e, ?_, ?_⟩
    · conv_lhs => rw [show r2 = r2.takeWhile Char.isDigit ++ r2.dropWhile Char.isDigit from
        (List.takeWhile_append_dropWhile Char.isDigit r2).symm]
      rw [hL]
      simp
    · intro he
      have hmem : e ∈ r2.takeWhile Char.isDigit := by
        rw [hL]
        exact List.mem_append_right _ (List.mem_singleton.mpr rfl)
      have := List.mem_takeWhile_imp hmem
      rw [he] at this
      have hn : ('n').isDigit = false := by decide
      rw [hn] at this
      cases this

/-- Every successful parse consumes a nonempty prefix whose final character
is never the letter n: values end with a closing quote, bracket or brace,
a digit, or the last letter of null/true/false.  Array and object tails
end with their closing bracket or brace. -/
theorem parseConsumedAll : ∀ fuel : Nat,
    (∀ s v r, parseVal fuel s = some (v, r) → ∃ pre c, s = pre ++ c :: r ∧ c ≠ 'n') ∧
    (∀ s vs r, parseArrTail fuel s = some (vs, r) → ∃ pre, s = pre ++ ']' :: r) ∧
    (∀ s kv r, parseField fuel s = some (kv, r) → ∃ pre c, s = pre ++ c :: r ∧ c ≠ 'n') ∧
    (∀ s fs r, parseObjTail fuel s = some (fs, r) → ∃ pre, s = pre ++ '}' :: r) := by
  intro fuel
  induction fuel with
  | zero =>
    refine ⟨?_, ?_, ?_, ?_⟩ <;> intro s a b h <;>
      simp [parseVal, parseArrTail, parseField, parseObjTail] at h
  | succ fuel ih =>
    obtain ⟨ihV, ihA, ihF, ihO⟩ := ih
    refine ⟨?_, ?_, ?_, ?_⟩
    · intro s v r h
      cases s with
      | nil => simp [parseVal] at h
      | cons c0 r0 =>
        simp only [parseVal] at h
        split_ifs at h with h1 h2 h3 h4 h5 h6 h7 h8
        · split at h
          · injection h with h'
            injection h' with hv hr
            subst hr
            exact ⟨[c0, 'u', 'l'], 'l', rfl, by decide⟩
          · simp at h
        · split at h
          · injection h with h'
            injection h' with hv hr
            subst hr
            exact ⟨[c0, 'r', 'u'], 'e', rfl, by decide⟩
          · simp at h
        · split at h
          · injection h with h'
            injection h' with hv hr
            subst hr
            exact ⟨[c0, 'a', 'l', 's'], 'e', rfl, by decide⟩
          · simp at h
        · split at h
          · rename_i out rest heq
            injection h with h'
            injection h' with hv hr
            subst hr
            obtain ⟨p, hp⟩ := parseStrBody_consumed r0.length r0 out rest (Nat.le_refl _) heq
            exact ⟨c0 :: p, '"', by rw [hp]; simp, by decide⟩
          · simp at h
        · split at h
          · rename_i r2 heq
            injection h with h'
            injection h' with hv hr
            subst hr
            obtain ⟨w, hw, -⟩ := skipWs_decomp r0
            refine ⟨c0 :: w, ']', ?_, by decide⟩
            rw [hw, heq]
            simp
          · split at h
            · rename_i v1 r3 heqV
              split at h
              · rename_i vs r4 heqA
                injection h with h'
                injection h' with hv hr
                subst hr
                obtain ⟨p1, c1, hp1, -⟩ := ihV _ _ _ heqV
                obtain ⟨p2, hp2⟩ := ihA _ _ _ heqA
                obtain ⟨w, hw, -⟩ := skipWs_decomp r0
                refine ⟨c0 :: (w ++ p1 ++ c1 :: p2), ']', ?_, by decide⟩
                rw [hw, hp1, hp2]
                simp
              · simp at h
            · simp at h
        · split at h
          · rename_i r2 heq
            injection h with h'
            injection h' with hv hr
            subst hr
            obtain ⟨w, hw, -⟩ := skipWs_decomp r0
            refine ⟨c0 :: w, '}', ?_, by decide⟩
            rw [hw, heq]
            simp
          · split at h
            · rename_i kv1 r3 heqF
              split at h
              · rename_i fs1 r4 heqO
                injection h with h'
                injection h' with hv hr
                subst hr
                obtain ⟨p1, c1, hp1, -⟩ := ihF _ _ _ heqF
                obtain ⟨p2, hp2⟩ := ihO _ _ _ heqO
                obtain ⟨w, hw, -⟩ := skipWs_decomp r0
                refine ⟨c0 :: (w ++ p1 ++ c1 :: p2), '}', ?_, by decide⟩
                rw [hw, hp1, hp2]
                simp
              · simp at h
            · simp at h
        · split at h
          · simp at h
          · split_ifs at h with hd
            injection h with h'
            injection h' with hv hr
            subst hr
            obtain ⟨p, cc, hpc, hcn⟩ := digits_consumed _ _ hd
            refine ⟨c0 :: p, cc, ?_, hcn⟩
            rw [hpc]
            simp
        · injection h with h'
          injection h' with hv hr
          subst hr
          exact digits_consumed c0 r0 h8
    · intro s vs r h
      simp only [parseArrTail] at h
      split at h
      · rename_i r2 heq
        injection h with h'
        injection h' with hv hr
        subst hr
        obtain ⟨w, hw, -⟩ := skipWs_decomp s
        exact ⟨w, by rw [hw, heq]⟩
      · rename_i r2 heq
        split at h
        · rename_i v1 r3 heqV
          split at h
          · rename_i vs1 r4 heqA
            injection h with h'
            injection h' with hv hr
            subst hr
            obtain ⟨p1, c1, hp1, -⟩ := ihV _ _ _ heqV
            obtain ⟨p2, hp2⟩ := ihA _ _ _ heqA
            obtain ⟨w, hw, -⟩ := skipWs_decomp s
            obtain ⟨w2, hw2, -⟩ := skipWs_decomp r2
            refine ⟨w ++ ',' :: (w2 ++ p1 ++ c1 :: p2), ?_⟩
            rw [hw, heq, hw2, hp1, hp2]
            simp
          · simp at h
        · simp at h
      · simp at h
    · intro s kv r h
      simp only [parseField] at h
      split at h
      · rename_i rk
        split at h
        · rename_i key r2 heqS
          split at h
          · rename_i r3 heqC
            split at h
            · rename_i v1 r4 heqV
              injection h with h'
              injection h' with hv hr
              subst hr
              obtain ⟨pK, hpK⟩ :=
                parseStrBody_consumed rk.length rk key r2 (Nat.le_refl _) heqS
              obtain ⟨w2, hw2, -⟩ := skipWs_decomp r2
              obtain ⟨w3, hw3, -⟩ := skipWs_decomp r3
              obtain ⟨pV, cV, hpV, hcV⟩ := ihV _ _ _ heqV
              refine ⟨'"' :: (pK ++ '"' :: (w2 ++ ':' :: (w3 ++ pV))), cV, ?_, hcV⟩
              rw [hpK, hw2, heqC, hw3, hpV]
              simp
            · simp at h
          · simp at h
        · simp at h
      · simp at h
    · intro s fs r h
      simp only [parseObjTail] at h
      split at h
      · rename_i r2 heq
        injection h with h'
        injection h' with hv hr
        subst hr
        obtain ⟨w, hw, -⟩ := skipWs_decomp s
        exact ⟨w, by rw [hw, heq]⟩
      · rename_i r2 heq
        split at h
        · rename_i kv1 r3 heqF
          split at h
          · rename_i fs1 r4 heqO
            injection h with h'
            injection h' with hv hr
            subst hr
            obtain ⟨p1, c1, hp1, -⟩ := ihF _ _ _ heqF
            obtain ⟨p2, hp2⟩ := ihO _ _ _ heqO
            obtain ⟨w, hw, -⟩ := skipWs_decomp s
            obtain ⟨w2, hw2, -⟩ := skipWs_decomp r2
            refine ⟨w ++ ',' :: (w2 ++ p1 ++ c1 :: p2), ?_⟩
            rw [hw, heq, hw2, hp1, hp2]
            simp
          · simp at h
        · simp at h
      · simp at h

theorem trimWs_getLast_not_ws (body : List Char) (c : Char)
    (h : (trimWs body).getLast? = some c) : isWs c = false := by
  unfold trimWs at h
  cases hsk : skipWs (skipWs body).reverse with
  | nil =>
    rw [hsk] at h
    simp at h
  | cons d y =>
    rw [hsk] at h
    rw [List.getLast?_reverse] at h
    have hdc : d = c := by simpa using h
    rw [← hdc]
    exact skipWs_head_not_ws _ _ _ hsk

/-- Every input splits as leading whitespace, its trimmed core, and
trailing whitespace. -/
theorem body_trim_decomp (body : List Char) :
    ∃ w₁ w₂, body = w₁ ++ trimWs body ++ w₂ ∧ ∀ c ∈ w₂, isWs c = true := by
  obtain ⟨w₁, hw₁, -⟩ := skipWs_decomp body
  obtain ⟨w₂r, hw₂, hws⟩ := skipWs_decomp (skipWs body).reverse
  refine ⟨w₁, w₂r.reverse, ?_, ?_⟩
  · have h2 : skipWs body = trimWs body ++ w₂r.reverse := by
      have hcg := congrArg List.reverse hw₂
      rw [List.reverse_reverse, List.reverse_append] at hcg
      exact hcg
    conv_lhs => rw [hw₁, h2]
    simp [List.append_assoc]
  · intro c hc
    exact hws c (List.mem_reverse.mp hc)

/-- A successfully parsed document never ends with the seven characters of
an opening json fence: its last character is never the letter n. -/
theorem parseJson_no_fence7_suffix (body : List Char) (j : Json)
    (hj : parseJson body = some j) : ¬ fence7 <:+ body := by
  intro hsuf
  obtain ⟨p0, hp0⟩ := hsuf
  have hlast : body.getLast? = some 'n' := by
    rw [← hp0, List.getLast?_append_of_ne_nil p0 (by decide : fence7 ≠ [])]
    rfl
  unfold parseJson at hj
  dsimp only at hj
  split at hj
  · rename_i v rr hpv
    split_ifs at hj with hrw
    · obtain ⟨pre, c, hpc, hcn⟩ :=
        (parseConsumedAll ((trimWs body).length + 1)).1 _ _ _ hpv
      obtain ⟨w₁, w₂, hb, hw₂⟩ := body_trim_decomp body
      cases w₂ with
      | cons x xs =>
        have h1 : body.getLast? = (x :: xs).getLast? := by
          conv_lhs => rw [hb]
          exact List.getLast?_append_of_ne_nil _ (by simp)
        rw [hlast] at h1
        have hne2 : (x :: xs) ≠ ([] : List Char) := by simp
        have hws : isWs ((x :: xs).getLast hne2) = true :=
          hw₂ _ (List.getLast_mem hne2)
        rw [List.getLast?_eq_getLast _ hne2] at h1
        injection h1 with h1c
        rw [← h1c] at hws
        exact absurd hws (by decide)
      | nil =>
        rw [List.append_nil] at hb
        have htne : trimWs body ≠ [] := by rw [hpc]; simp
        have h1 : body.getLast? = (trimWs body).getLast? := by
          conv_lhs => rw [hb]
          exact List.getLast?_append_of_ne_nil _ htne
        rw [hlast] at h1
        cases hrr : rr with
        | nil =>
          rw [hrr] at hpc
          have hgl : (trimWs body).getLast? = some c := by
            rw [hpc]
            exact List.getLast?_concat pre
          rw [hgl] at h1
          injection h1 with h1c
          exact hcn h1c.symm
        | cons y ys =>
          rw [hrr] at hpc hrw
          have hyws : ∀ cc ∈ y :: ys, isWs cc = true := skipWs_eq_nil_all_ws _ hrw
          have h2 : (trimWs body).getLast? = (y :: ys).getLast? := by
            rw [hpc, show pre ++ c :: (y :: ys) = (pre ++ [c]) ++ (y :: ys) by simp]
            exact List.getLast?_append_of_ne_nil _ (by simp)
          rw [h2] at h1
          have hne2 : (y :: ys) ≠ ([] : List Char) := by simp
          have hws : isWs ((y :: ys).getLast hne2) = true :=
            hyws _ (List.getLast_mem hne2)
          rw [List.getLast?_eq_getLast _ hne2] at h1
          injection h1 with h1c
          rw [← h1c] at hws
          exact absurd hws (by decide)
  · simp at hj

/-! ### Data model (main.rs lines 41-68) -/

/-- CommitInfo: oid, headline, body, optional PR number (main.rs lines 41-47). -/
structure CommitInfo where
  oid : List Char
  headline : List Char
  body : List Char
  pr : Option (List Char)
deriving DecidableEq

/-- PrInfo: the cached pull-request record (main.rs lines 49-60). -/
structure PrInfo where
  number : List Char
  title : List Char
  body : List Char
  author : List Char
  comments : List (List Char)
  commits : List CommitInfo
  url : List Char
  updated_at : List Char
  merged_at : List Char
deriving DecidableEq

/-- PrTaggedSummary (main.rs lines 62-68). -/
structure PrTaggedSummary where
  tag : List Char
  summary : List Char
  number : List Char
  url : List Char
deriving DecidableEq

/-! ### The reconciliation cache

One JSON file per key under .git/glance/commits and .git/glance/prs.
Modelled as association lists: a write conses the new pair on the front and
a lookup returns the first match, so the newest write wins, which is the
overwrite semantics of File::create. -/

def lookupEntry {α : Type} : List (List Char × α) → List Char → Option α
  | [], _ => none
  | (k, v) :: rest, key => if k = key then some v else lookupEntry rest key

def putEntry {α : Type} (m : List (List Char × α)) (k : List Char) (v : α) :
    List (List Char × α) :=
  (k, v) :: m

structure Cache where
  commits : List (List Char × CommitInfo)
  prs : List (List Char × PrInfo)
deriving DecidableEq

/-- The queried commit's repository metadata (commit_object.summary() and
commit_object.message()). -/
structure CommitMeta where
  headline : List Char
  body : List Char
deriving DecidableEq

/-- Outcome of spawning the gh process: its raw stdout on exit success, or
the combined diagnostic text on failure. -/
inductive GhResult where
  | success (stdout : List Char)
  | failure (output : List Char)
deriving DecidableEq

/-- Result of one get_pr_info step.  ok corresponds to Ok(..), err to an
anyhow error returned with ? or bail!, and panicked to a Rust panic
(an unwrap of None inside the function). -/
inductive StepOutcome where
  | ok (res : Option PrInfo)
  | err
  | panicked
deriving DecidableEq

/-- One commit entry of the gh response (main.rs lines 453-458): the three
string fields are read with as_str().unwrap(), so a missing field is a
panic, modelled by none. -/
def extractCommit (num : List Char) (c : Json) : Option CommitInfo :=
  match asStr (jKey c "oid".toList), asStr (jKey c "messageHeadline".toList),
      asStr (jKey c "messageBody".toList) with
  | some o, some h, some b => some ⟨o, h, b, some num⟩
  | _, _, _ => none

def extractCommits (num : List Char) : List Json → Option (List CommitInfo)
  | [] => some []
  | c :: cs =>
    match extractCommit num c, extractCommits num cs with
    | some ci, some rest => some (ci :: rest)
    | _, _ => none

/-- get_pr_info (main.rs lines 398-540).  Inputs: the cache (the state of
.git/glance), the queried commit's oid and repository metadata, and the
outcome of the gh invocation (consulted only on a cache miss).  Returns the
new cache state and the step outcome.

Cache hit: a commit record with a PR id fetches the PR record (a missing PR
file is an error surfaced by ?); one with no PR id returns None.  Cache
miss: a failed gh run is an error (bail!, nothing cached); otherwise the
stdout is JSON-parsed (? on failure), a Null first element returns Ok(None)
without writing anything, and a PR object has its commits and string fields
read with unwrap (panic when absent), after which the PR record, the
queried commit's record, and one record per listed commit are written.  The
source re-reads the commits array a second time for the per-commit writes
(lines 494-511) extracting exactly the fields already extracted at lines
449-459, so the loop here reuses that list; its None arm (lines 514-530) is
unreachable because line 450 already unwrapped the same as_array(). -/
def getPrInfoMiss (cache : Cache) (oid : List Char) (meta : CommitMeta) (gh : GhResult) :
    Cache × StepOutcome :=
  match gh with
    | .failure _ => (cache, .err)
    | .success stdout =>
      match parseJson stdout with
      | none => (cache, .err)
      | some j =>
        if isNull (jIdx j 0) then (cache, .ok none)
        else
          match asArr (jKey (jIdx j 0) "commits".toList) with
          | none => (cache, .panicked)
          | some cjs =>
            let num := jToString (jKey (jIdx j 0) "number".toList)
            match extractCommits num cjs with
            | none => (cache, .panicked)
            | some cis =>
              match asStr (jKey (jIdx j 0) "title".toList),
                  asStr (jKey (jIdx j 0) "body".toList),
                  asStr (jKey (jKey (jIdx j 0) "author".toList) "login".toList),
                  asStr (jKey (jIdx j 0) "updatedAt".toList),
                  asStr (jKey (jIdx j 0) "mergedAt".toList),
                  asStr (jKey (jIdx j 0) "url".toList) with
              | some title, some body, some login, some upd, some mrg, some url =>
                let prData : PrInfo := ⟨num, title, body, login, [], cis, url, upd, mrg⟩
                let c1 : Cache := ⟨cache.commits, putEntry cache.prs num prData⟩
                let c2 : Cache :=
                  ⟨putEntry c1.commits oid ⟨oid, meta.headline, meta.body, some num⟩, c1.prs⟩
                let c3 : Cache :=
                  ⟨cis.foldl (fun m ci => putEntry m ci.oid ci) c2.commits, c2.prs⟩
                (c3, .ok (some prData))
              | _, _, _, _, _, _ => (cache, .panicked)

def getPrInfo (cache : Cache) (oid : List Char) (meta : CommitMeta) (gh : GhResult) :
    Cache × StepOutcome :=
  match lookupEntry cache.commits oid with
  | some ci =>
    match ci.pr with
    | some prId =>
      match lookupEntry cache.prs prId with
      | some pi => (cache, .ok (some pi))
      | none => (cache, .err)
    | none => (cache, .ok none)
  | none => getPrInfoMiss cache oid meta gh

theorem getPrInfo_of_miss (cache : Cache) (oid : List Char) (meta : CommitMeta)
    (gh : GhResult) (hmiss : lookupEntry cache.commits oid = none) :
    getPrInfo cache oid meta gh = getPrInfoMiss cache oid meta gh := by
  unfold getPrInfo
  rw [hmiss]

/-- get_commit_info (main.rs lines 383-392). -/
def getCommitInfo (oid : List Char) (meta : CommitMeta) : CommitInfo :=
  ⟨oid, meta.headline, meta.body, none⟩

/-! ### The reconciliation loop (main.rs lines 136-158) -/

/-- One commit of the release range together with the external world's
behaviour for it: its repository metadata and the outcome the gh call
would have if invoked for it. -/
structure RCommit where
  oid : List Char
  meta : CommitMeta
  gh : GhResult
deriving DecidableEq

/-- The loop's accumulated state: the cache directory, pr_list, commit_list,
and the error lines printed so far. -/
structure RecState where
  cache : Cache
  prList : List (List Char × PrInfo)
  commitList : List (List Char × CommitInfo)
  errors : List (List Char)
deriving DecidableEq

/-- The for_each at main.rs lines 142-158: each commit goes through
get_pr_info; a PR inserts into pr_list, None inserts the commit into
commit_list, an error is printed and the loop continues.  A panic aborts
the whole process, modelled as none. -/
def reconcile : RecState → List RCommit → Option RecState
  | st, [] => some st
  | st, c :: cs =>
    match getPrInfo st.cache c.oid c.meta c.gh with
    | (cache', .ok (some pr)) =>
      reconcile { st with cache := cache', prList := putEntry st.prList pr.number pr } cs
    | (cache', .ok none) =>
      reconcile { st with
        cache := cache'
        commitList := putEntry st.commitList c.oid (getCommitInfo c.oid c.meta) } cs
    | (cache', .err) =>
      reconcile { st with cache := cache', errors := st.errors ++ [c.oid] } cs
    | (_, .panicked) => none

/-! ### Summarization (pr_to_tagged_summary, main.rs lines 301-351) -/

/-- Outcome of pr_to_tagged_summary for one PR given the oracle's raw
response text: Ok, a returned error (the ? on serde_json::from_str), or a
panic (the unwrap on a missing tag or summary field at lines 342-343). -/
inductive SummarizeOutcome where
  | ok (t : PrTaggedSummary)
  | parseErr
  | panicked
deriving DecidableEq

/-- The response-handling part of pr_to_tagged_summary (main.rs lines
336-351): strip fence markers, parse as JSON (? on failure), then read
the tag and summary fields with as_str().unwrap() — a panic when either
is missing or not a string. -/
def prToTaggedSummary (pr : PrInfo) (response : List Char) : SummarizeOutcome :=
  match parseJson (stripFences response) with
  | none => .parseErr
  | some j =>
    match asStr (jKey j "tag".toList), asStr (jKey j "summary".toList) with
    | some t, some s => .ok ⟨t, s, pr.number, pr.url⟩
    | _, _ => .panicked

/-! ### Grouping (main.rs lines 212-227) -/

/-- grouped_pr_summaries.entry(tag).or_insert_with(Vec::new).push(s):
the map content is insertion-ordered here; iteration order is a separate
input of the renderer. -/
def pushGroup : List (List Char × List PrTaggedSummary) → PrTaggedSummary →
    List (List Char × List PrTaggedSummary)
  | [], t => [(t.tag, [t])]
  | (k, v) :: gs, t =>
    if k = t.tag then (k, v ++ [t]) :: gs else (k, v) :: pushGroup gs t

/-- The grouping loop over the collected summarization results: Ok results
are grouped by tag, Err results print an error line and are skipped.  A
panicked summarization already aborted the run during the collection at
lines 181-189, modelled as none. -/
def groupSummariesAux (gs : List (List Char × List PrTaggedSummary))
    (es : List (List Char)) :
    List SummarizeOutcome → Option (List (List Char × List PrTaggedSummary) × List (List Char))
  | [] => some (gs, es)
  | .ok t :: rs => groupSummariesAux (pushGroup gs t) es rs
  | .parseErr :: rs => groupSummariesAux gs (es ++ ["Error".toList]) rs
  | .panicked :: _ => none

def groupSummaries (rs : List SummarizeOutcome) :
    Option (List (List Char × List PrTaggedSummary) × List (List Char)) :=
  groupSummariesAux [] [] rs

/-! ### Rendering (main.rs lines 229-251) -/

/-- The group-heading capitalization (main.rs line 232):
tag.chars().next().unwrap().to_uppercase().to_string() + the byte slice of
tag from index 1.  chars().next() is None on an empty tag (unwrap panics),
and the byte slice panics when byte 1 is not a character boundary, i.e.
when the first character occupies more than one byte.  Panic is none.
(Char.toUpper is the simple uppercase mapping; the full Unicode mapping
plays no role in any claim.) -/
def capitalizeTag (t : List Char) : Option (List Char) :=
  match t with
  | [] => none
  | c :: r => if c.utf8Size = 1 then some (c.toUpper :: r) else none

/-- The lines printed for one tag group (lines 230-242), without the
colorization.  The entries of the group are looked up in the grouped map. -/
def renderGroup (gs : List (List Char × List PrTaggedSummary)) (tag : List Char) :
    Option (List Char) :=
  match capitalizeTag tag with
  | none => none
  | some ct =>
    some ("\n** ".toList ++ ct ++ " **\n".toList ++
      (((lookupEntry gs tag).getD []).map (fun s =>
        "* ".toList ++ s.summary ++ " [#".toList ++ s.number ++ "](".toList ++
          s.url ++ ")\n".toList)).flatten)

/-- The loop over the grouped map, in the iteration order given by
groupOrder (a HashMap iterates in an order that varies from process to
process; the order is therefore an explicit input). -/
def renderGroups (gs : List (List Char × List PrTaggedSummary)) :
    List (List Char) → Option (List Char)
  | [] => some []
  | tag :: rest =>
    match renderGroup gs tag, renderGroups gs rest with
    | some b, some bs => some (b ++ bs)
    | _, _ => none

/-- One line of the standalone section (line 250): the headline and the
first six characters of the oid. -/
def renderOtherLine (cl : List (List Char × CommitInfo)) (k : List Char) : List Char :=
  match lookupEntry cl k with
  | some ci => "* ".toList ++ ci.headline ++ " (".toList ++ k.take 6 ++ ")\n".toList
  | none => []

/-- The standalone-commit section (lines 244-251): a heading when
commit_list is nonempty, then one line per commit in the iteration order
commitOrder of the commit_list HashMap. -/
def renderOther (cl : List (List Char × CommitInfo)) (commitOrder : List (List Char)) :
    List Char :=
  (if cl = [] then [] else "## Other\n".toList) ++
    (commitOrder.map (renderOtherLine cl)).flatten

/-- The grouping-and-rendering output for fixed grouped content and fixed
hash-map iteration orders; none when a heading capitalization panics. -/
def render (gs : List (List Char × List PrTaggedSummary)) (groupOrder : List (List Char))
    (cl : List (List Char × CommitInfo)) (commitOrder : List (List Char)) :
    Option (List Char) :=
  match renderGroups gs groupOrder with
  | some g => some (g ++ renderOther cl commitOrder)
  | none => none

/-! ### Base-reference resolution (main.rs lines 92-98) -/

inductive BaseError where
  | noBaseline
deriving DecidableEq

/-- The match at main.rs lines 94-98 over (cli.last,
repo.tag_names(None).iter().last()).  tag_names lists the repository's
tags in name order; its iterator yields Option values (None for a tag name
that is not valid UTF-8), so the listing is a List of Options and last
gives the final entry.  An explicit -l value wins; otherwise the last
listed tag; otherwise (also for a non-UTF-8 final name) the bail! at line
97, the NoBaselineError of the spec. -/
def resolveLast (cliLast : Option (List Char)) (tagNames : List (Option (List Char))) :
    Except BaseError (List Char) :=
  match cliLast, tagNames.getLast? with
  | some sha, _ => .ok sha
  | none, some (some t) => .ok t
  | none, _ => .error .noBaseline

/-- Modelled from the spec: the most recently created tag in the
repository, from tag names paired with creation times — the base the spec
says is used when no explicit reference is supplied.  Missing from src:
the source has only the TODO at line 93 in its place. -/
def mostRecentlyCreated (tags : List (List Char × Nat)) : Option (List Char) :=
  match tags with
  | [] => none
  | x :: xs => some ((xs.foldl (fun best y => if y.2 > best.2 then y else best) x).1)

/-! ### Cache helper lemmas -/

theorem lookupEntry_putEntry_self {α : Type} (m : List (List Char × α)) (k : List Char)
    (v : α) : lookupEntry (putEntry m k v) k = some v := by
  simp [putEntry, lookupEntry]

theorem lookupEntry_putEntry_ne {α : Type} (m : List (List Char × α)) (k k' : List Char)
    (v : α) (h : k ≠ k') : lookupEntry (putEntry m k v) k' = lookupEntry m k' := by
  simp [putEntry, lookupEntry, h]

theorem lookupEntry_foldl_put_of_not_mem (l : List CommitInfo) (k : List Char)
    (h : ∀ ci ∈ l, ci.oid ≠ k) :
    ∀ m : List (List Char × CommitInfo),
      lookupEntry (l.foldl (fun m ci => putEntry m ci.oid ci) m) k = lookupEntry m k := by
  induction l with
  | nil => intro m; rfl
  | cons c rest ih =>
    intro m
    have hc : c.oid ≠ k := h c (List.mem_cons_self c rest)
    have hrest : ∀ ci ∈ rest, ci.oid ≠ k := fun ci hm => h ci (List.mem_cons_of_mem c hm)
    rw [List.foldl_cons, ih hrest, lookupEntry_putEntry_ne _ _ _ _ hc]

theorem lookupEntry_foldl_put_mem (l : List CommitInfo) (k : List Char)
    (h : ∃ ci ∈ l, ci.oid = k) :
    ∀ m : List (List Char × CommitInfo),
      ∃ ci, ci ∈ l ∧ ci.oid = k ∧
        lookupEntry (l.foldl (fun m ci => putEntry m ci.oid ci) m) k = some ci := by
  induction l with
  | nil =>
    obtain ⟨ci, hm, _⟩ := h
    exact absurd hm (List.not_mem_nil ci)
  | cons c rest ih =>
    intro m
    by_cases hrest : ∃ ci ∈ rest, ci.oid = k
    · obtain ⟨ci, hm, ho, hl⟩ := ih hrest (putEntry m c.oid c)
      exact ⟨ci, List.mem_cons_of_mem c hm, ho, by rw [List.foldl_cons]; exact hl⟩
    · have hck : c.oid = k := by
        obtain ⟨ci, hm, ho⟩ := h
        rcases List.mem_cons.mp hm with rfl | hm'
        · exact ho
        · exact absurd ⟨ci, hm', ho⟩ hrest
      refine ⟨c, List.mem_cons_self c rest, hck, ?_⟩
      rw [List.foldl_cons,
        lookupEntry_foldl_put_of_not_mem rest k (fun ci hm ho => hrest ⟨ci, hm, ho⟩) _,
        hck, lookupEntry_putEntry_self]

theorem extractCommits_pr (num : List Char) :
    ∀ (cjs : List Json) (cis : List CommitInfo), extractCommits num cjs = some cis →
      ∀ ci ∈ cis, ci.pr = some num := by
  intro cjs
  induction cjs with
  | nil =>
    intro cis h ci hm
    simp only [extractCommits] at h
    cases h
    exact absurd hm (List.not_mem_nil ci)
  | cons c rest ih =>
    intro cis h ci hm
    simp only [extractCommits] at h
    cases he : extractCommit num c with
    | none => rw [he] at h; cases h
    | some ci0 =>
      rw [he] at h
      cases hr : extractCommits num rest with
      | none => rw [hr] at h; cases h
      | some cis0 =>
        rw [hr] at h
        cases h
        rcases List.mem_cons.mp hm with rfl | hm'
        · unfold extractCommit at he
          split at he
          · cases he; rfl
          · cases he
        · exact ih cis0 hr ci hm'

/-- Shared shape of the cache-miss success path of get_pr_info: the PR
record returned was freshly built (so its comments are empty and every
embedded commit points at its number), it was written to the PR side of
the cache, and every commit listed in it got a commit record pointing at
the PR number. -/
theorem getPrInfo_miss_ok_shape (cache : Cache) (oid : List Char) (meta : CommitMeta)
    (gh : GhResult) (cache' : Cache) (pr : PrInfo)
    (hmiss : lookupEntry cache.commits oid = none)
    (hstep : getPrInfo cache oid meta gh = (cache', .ok (some pr))) :
    pr.comments = [] ∧
    lookupEntry cache'.prs pr.number = some pr ∧
    (∀ ci ∈ pr.commits,
      ∃ rec, lookupEntry cache'.commits ci.oid = some rec ∧ rec.pr = some pr.number) := by
  rw [getPrInfo_of_miss cache oid meta gh hmiss] at hstep
  unfold getPrInfoMiss at hstep
  split at hstep
  · simp at hstep
  · split at hstep
    · simp at hstep
    · split at hstep
      · simp at hstep
      · split at hstep
        · simp at hstep
        · rename_i cjs ha
          split at hstep
          · dsimp only at hstep
            split at hstep
            · simp at hstep
            · rename_i cis hx
              simp only [Prod.mk.injEq, StepOutcome.ok.injEq, Option.some.injEq] at hstep
              obtain ⟨hcache, hpr⟩ := hstep
              subst hpr
              subst hcache
              refine ⟨rfl, lookupEntry_putEntry_self _ _ _, ?_⟩
              intro ci hm
              obtain ⟨ci', hm', ho', hl'⟩ :=
                lookupEntry_foldl_put_mem cis ci.oid ⟨ci, hm, rfl⟩ _
              exact ⟨ci', hl', extractCommits_pr _ cjs cis hx ci' hm'⟩
          all_goals first
            | (simp at hstep; done)
            | (dsimp only at hstep; split at hstep <;> simp at hstep)

/-! ### Concrete example inputs used by witnesses -/

def exCache0 : Cache := ⟨[], []⟩

def exMeta : CommitMeta := ⟨"add retry".toList, "add retry\n\nbody".toList⟩

def exOid : List Char := "aaa111".toList

/-- A gh stdout with one merged PR containing two commits. -/
def exStdout : List Char :=
  String.toList
    "[\x7b\"number\": 42, \"title\": \"Add retry logic\", \"body\": \"B\", \"author\": \x7b\"login\": \"al\"\x7d, \"updatedAt\": \"u\", \"mergedAt\": \"m\", \"url\": \"http://x/42\", \"commits\": [\x7b\"oid\": \"aaa111\", \"messageHeadline\": \"h1\", \"messageBody\": \"b1\"\x7d, \x7b\"oid\": \"bbb222\", \"messageHeadline\": \"h2\", \"messageBody\": \"b2\"\x7d]\x7d]"

def exStep : Cache × StepOutcome := getPrInfo exCache0 exOid exMeta (.success exStdout)

def exPr : PrInfo :=
  ⟨"42".toList, "Add retry logic".toList, "B".toList, "al".toList, [],
    [⟨"aaa111".toList, "h1".toList, "b1".toList, some "42".toList⟩,
      ⟨"bbb222".toList, "h2".toList, "b2".toList, some "42".toList⟩],
    "http://x/42".toList, "u".toList, "m".toList⟩

/-! ### Claim theorems -/

/-- Claim C1: when reconciling a cache-miss commit whose PR lookup resolves
to a pull request, every commit id listed inside the returned PR record —
not only the queried one — ends up with a cache entry pointing at that PR
id, and the PR record itself is cached under its id. -/
theorem c1_cache_population_invariant (cache : Cache) (oid : List Char)
    (meta : CommitMeta) (gh : GhResult) (cache' : Cache) (pr : PrInfo)
    (hmiss : lookupEntry cache.commits oid = none)
    (hstep : getPrInfo cache oid meta gh = (cache', .ok (some pr))) :
    (∀ ci ∈ pr.commits,
      ∃ rec, lookupEntry cache'.commits ci.oid = some rec ∧ rec.pr = some pr.number) ∧
    lookupEntry cache'.prs pr.number = some pr :=
  ⟨(getPrInfo_miss_ok_shape cache oid meta gh cache' pr hmiss hstep).2.2,
    (getPrInfo_miss_ok_shape cache oid meta gh cache' pr hmiss hstep).2.1⟩

theorem c1_witness :
    lookupEntry exCache0.commits exOid = none ∧
    ((∀ ci ∈ exPr.commits,
      ∃ rec, lookupEntry exStep.1.commits ci.oid = some rec ∧ rec.pr = some exPr.number) ∧
      lookupEntry exStep.1.prs exPr.number = some exPr) :=
  ⟨rfl, c1_cache_population_invariant exCache0 exOid exMeta (.success exStdout)
    exStep.1 exPr rfl rfl⟩

/-- Claim C10: every PullRequestRecord constructed from a PR-lookup response
on the cache-miss path and persisted to the cache has an empty comments
sequence, whatever the external response contained. -/
theorem c10_comments_always_empty (cache : Cache) (oid : List Char)
    (meta : CommitMeta) (gh : GhResult) (cache' : Cache) (pr : PrInfo)
    (hmiss : lookupEntry cache.commits oid = none)
    (hstep : getPrInfo cache oid meta gh = (cache', .ok (some pr))) :
    pr.comments = [] ∧ lookupEntry cache'.prs pr.number = some pr :=
  ⟨(getPrInfo_miss_ok_shape cache oid meta gh cache' pr hmiss hstep).1,
    (getPrInfo_miss_ok_shape cache oid meta gh cache' pr hmiss hstep).2.1⟩

theorem c10_witness :
    lookupEntry exCache0.commits exOid = none ∧
    (exPr.comments = [] ∧ lookupEntry exStep.1.prs exPr.number = some exPr) :=
  ⟨rfl, c10_comments_always_empty exCache0 exOid exMeta (.success exStdout)
    exStep.1 exPr rfl rfl⟩

/-- Claim C2 (the code contradicts it): on a cache miss where the lookup
reports no containing merged PR (gh prints the empty JSON array),
get_pr_info returns Ok(None) at main.rs line 446 WITHOUT writing a commit
record, so the cache is unchanged and a later run for the same commit
misses again and repeats the external call.  The write the claim (and the
function's own comment at lines 394-397) describes exists only in the
unreachable arm at lines 514-530. -/
theorem c2_standalone_not_cached :
    getPrInfo exCache0 exOid exMeta (.success "[]".toList) = (exCache0, .ok none) ∧
    lookupEntry exCache0.commits exOid = none :=
  ⟨rfl, rfl⟩

/-- Claim C6: a gh transport failure for one cache-miss commit only appends
an error line; reconciliation goes on with the remaining commits, the
failing commit enters neither pr_list nor commit_list, and its cache entry
is not written (the cache field is carried over unchanged), so a later run
retries it. -/
theorem c6_lookup_failure_nonfatal (st : RecState) (c : RCommit) (out : List Char)
    (cs : List RCommit)
    (hmiss : lookupEntry st.cache.commits c.oid = none)
    (hfail : c.gh = .failure out) :
    reconcile st (c :: cs) = reconcile { st with errors := st.errors ++ [c.oid] } cs := by
  show (match getPrInfo st.cache c.oid c.meta c.gh with
    | (cache', .ok (some pr)) =>
      reconcile { st with cache := cache', prList := putEntry st.prList pr.number pr } cs
    | (cache', .ok none) =>
      reconcile { st with
        cache := cache'
        commitList := putEntry st.commitList c.oid (getCommitInfo c.oid c.meta) } cs
    | (cache', .err) =>
      reconcile { st with cache := cache', errors := st.errors ++ [c.oid] } cs
    | (_, .panicked) => none) = _
  rw [getPrInfo_of_miss _ _ _ _ hmiss, hfail]
  rfl

theorem c6_witness :
    lookupEntry (RecState.mk exCache0 [] [] []).cache.commits exOid = none ∧
    (RCommit.mk exOid exMeta (.failure "boom".toList)).gh = .failure "boom".toList ∧
    reconcile (RecState.mk exCache0 [] [] [])
        [RCommit.mk exOid exMeta (.failure "boom".toList)] =
      reconcile { RecState.mk exCache0 [] [] [] with errors := [] ++ [exOid] } [] :=
  ⟨rfl, rfl, c6_lookup_failure_nonfatal (RecState.mk exCache0 [] [] [])
    (RCommit.mk exOid exMeta (.failure "boom".toList)) "boom".toList [] rfl rfl⟩

/-- Claim C3 (the code contradicts its first half): with no explicit base,
main takes the LAST element of the tag-name listing, which is name order,
not creation order — the TODO at main.rs line 93 records exactly this gap.
Here v1.10.0 was created after v1.9.0 (times 2 and 1) but sorts before it,
so the code resolves the base to v1.9.0 while the most recently created
tag is v1.10.0.  The claim's second half holds: with no explicit base and
no tags the run fails with the bail! of line 97 (the NoBaselineError),
and an explicit base always wins. -/
theorem c3_base_is_last_listed_not_most_recent :
    resolveLast none [some "v1.10.0".toList, some "v1.9.0".toList] = .ok "v1.9.0".toList ∧
    mostRecentlyCreated [("v1.10.0".toList, 2), ("v1.9.0".toList, 1)] =
      some "v1.10.0".toList ∧
    "v1.9.0".toList ≠ "v1.10.0".toList ∧
    resolveLast none [] = .error .noBaseline ∧
    ∀ (sha : List Char) (tags : List (Option (List Char))),
      resolveLast (some sha) tags = .ok sha := by
  refine ⟨rfl, rfl, by decide, rfl, fun sha tags => rfl⟩

def exGoodBody : List Char := "\x7b\"tag\": \"misc\", \"summary\": \"s\"\x7d".toList

def exSummPr : PrInfo :=
  ⟨"7".toList, "t".toList, "b".toList, "a".toList, [], [], "u".toList,
    "ua".toList, "ma".toList⟩

/-- Claim C4 counterexample: a fenced block with language tag js — the
claim quantifies over fenced blocks with or without a language tag — is
not stripped by the two replace calls at main.rs line 340: the tag text
stays in front of the JSON, parsing fails, and the outcome differs from
summarizing the unwrapped response with the same body. -/
theorem c4_counterexample :
    prToTaggedSummary exSummPr (langWrap "js".toList exGoodBody) = .parseErr ∧
    prToTaggedSummary exSummPr exGoodBody =
      .ok ⟨"misc".toList, "s".toList, "7".toList, "u".toList⟩ ∧
    prToTaggedSummary exSummPr (langWrap "js".toList exGoodBody) ≠
      prToTaggedSummary exSummPr exGoodBody :=
  ⟨rfl, rfl, by decide⟩

/-- Claim C4 amended: for every JSON body — every response content that
parses as JSON, including bodies whose strings contain backticks — a
fenced wrapping with the json language tag, or with no language tag,
summarizes exactly as the unwrapped response; a fence with any other
language tag need not (see the counterexample).  The proof goes through
the fact that no JSON document can end with the seven opening-fence
characters, so the two replace calls act identically on the body whether
wrapped or not. -/
theorem c4_fenced_parses_identically (pr : PrInfo) (body : List Char) (j : Json)
    (hj : parseJson body = some j) :
    prToTaggedSummary pr (jsonWrap body) = prToTaggedSummary pr body ∧
    prToTaggedSummary pr (plainWrap body) = prToTaggedSummary pr body := by
  have hnf := parseJson_no_fence7_suffix body j hj
  unfold prToTaggedSummary
  rw [stripFences_jsonWrap_eq body hnf, stripFences_plainWrap_eq body hnf,
    parseJson_cons_nl (stripFences body ++ ['\n']),
    parseJson_append_nl (stripFences body)]
  exact ⟨rfl, rfl⟩

/-- A JSON body whose summary string contains a backtick fence. -/
def c4Body : List Char := "\x7b\"tag\": \"misc\", \"summary\": \"a```b\"\x7d".toList

def c4Json : Json := (parseJson c4Body).getD .null

theorem c4_witness :
    parseJson c4Body = some c4Json ∧
    (prToTaggedSummary exSummPr (jsonWrap c4Body) =
        prToTaggedSummary exSummPr c4Body ∧
      prToTaggedSummary exSummPr (plainWrap c4Body) =
        prToTaggedSummary exSummPr c4Body) :=
  ⟨rfl, c4_fenced_parses_identically exSummPr c4Body c4Json rfl⟩

/-- Claim C5 counterexample: the empty JSON object parses but carries
neither tag nor summary; pr_to_tagged_summary then panics on the unwrap at
main.rs line 342 — the run crashes — instead of returning the
SummaryParseError the claim describes for missing fields. -/
theorem c5_counterexample :
    prToTaggedSummary exSummPr "\x7b\x7d".toList = .panicked ∧
    SummarizeOutcome.panicked ≠ .parseErr :=
  ⟨rfl, by decide⟩

/-- Claim C5 amended: only non-JSON-parseable content yields the returned
error; the grouping loop then reports it, excludes that PR from every
group, and continues with the remaining results unchanged.  A response
that parses as JSON but lacks the tag or summary field panics instead
(see the counterexample). -/
theorem c5_parse_error_nonfatal (pr : PrInfo) (response : List Char)
    (hbad : parseJson (stripFences response) = none) :
    prToTaggedSummary pr response = .parseErr ∧
    ∀ gs es rest, groupSummariesAux gs es (.parseErr :: rest) =
      groupSummariesAux gs (es ++ ["Error".toList]) rest := by
  constructor
  · unfold prToTaggedSummary
    rw [hbad]
  · intro gs es rest
    rfl

theorem c5_witness :
    parseJson (stripFences "nope".toList) = none ∧
    (prToTaggedSummary exSummPr "nope".toList = .parseErr ∧
      ∀ gs es rest, groupSummariesAux gs es (.parseErr :: rest) =
        groupSummariesAux gs (es ++ ["Error".toList]) rest) :=
  ⟨rfl, c5_parse_error_nonfatal exSummPr "nope".toList rfl⟩

/-! ### Claim C7: missing required fields in the lookup response -/

def commitFieldMissing (cj : Json) : Prop :=
  asStr (jKey cj "oid".toList) = none ∨
  asStr (jKey cj "messageHeadline".toList) = none ∨
  asStr (jKey cj "messageBody".toList) = none

def topFieldMissing (j0 : Json) : Prop :=
  asStr (jKey j0 "title".toList) = none ∨
  asStr (jKey j0 "body".toList) = none ∨
  asStr (jKey (jKey j0 "author".toList) "login".toList) = none ∨
  asStr (jKey j0 "updatedAt".toList) = none ∨
  asStr (jKey j0 "mergedAt".toList) = none ∨
  asStr (jKey j0 "url".toList) = none

theorem extractCommit_none_of_missing (num : List Char) (cj : Json)
    (hmf : commitFieldMissing cj) : extractCommit num cj = none := by
  unfold extractCommit
  rcases hmf with h | h | h
  · rw [h]
  · rw [h]
    cases asStr (jKey cj "oid".toList) <;> rfl
  · rw [h]
    cases asStr (jKey cj "oid".toList) <;>
      cases asStr (jKey cj "messageHeadline".toList) <;> rfl

theorem extractCommits_none_of_missing (num : List Char) :
    ∀ cjs : List Json, (∃ cj ∈ cjs, commitFieldMissing cj) →
      extractCommits num cjs = none := by
  intro cjs
  induction cjs with
  | nil =>
    rintro ⟨cj, hm, _⟩
    exact absurd hm (List.not_mem_nil cj)
  | cons c rest ih =>
    rintro ⟨cj, hm, hmf⟩
    rcases List.mem_cons.mp hm with rfl | hm'
    · unfold extractCommits
      rw [extractCommit_none_of_missing num cj hmf]
    · unfold extractCommits
      rw [ih ⟨cj, hm', hmf⟩]
      cases extractCommit num c <;> rfl

def c7Stdout : List Char :=
  String.toList
    "[\x7b\"number\": 7, \"commits\": [\x7b\"oid\": \"ccc333\", \"messageHeadline\": \"h\", \"messageBody\": \"b\"\x7d]\x7d]"

def c7Json : Json := (parseJson c7Stdout).getD .null

/-- Claim C7 counterexample: a lookup response whose first element misses
the required title (and other) string fields makes get_pr_info panic on
the unwrap at main.rs line 463 — a crash of the run, not a returned
MalformedResponseError, and not the .err outcome errors take. -/
theorem c7_counterexample :
    getPrInfo exCache0 exOid exMeta (.success c7Stdout) = (exCache0, .panicked) ∧
    StepOutcome.panicked ≠ .err :=
  ⟨rfl, by decide⟩

/-- Claim C7 amended: a response whose first element is a PR object with a
missing or non-string required field — the commits array, a commit
sub-object's oid/messageHeadline/messageBody, or one of title, body,
author.login, updatedAt, mergedAt, url — makes get_pr_info panic (process
abort, nothing written to the cache), rather than returning a non-fatal
MalformedResponseError: no such error path exists in the code. -/
theorem c7_missing_field_panics (cache : Cache) (oid : List Char) (meta : CommitMeta)
    (stdout : List Char) (j : Json)
    (hmiss : lookupEntry cache.commits oid = none)
    (hparse : parseJson stdout = some j)
    (hnn : isNull (jIdx j 0) = false)
    (hmf : asArr (jKey (jIdx j 0) "commits".toList) = none ∨
      (∃ cjs, asArr (jKey (jIdx j 0) "commits".toList) = some cjs ∧
        ∃ cj ∈ cjs, commitFieldMissing cj) ∨
      topFieldMissing (jIdx j 0)) :
    getPrInfo cache oid meta (.success stdout) = (cache, .panicked) := by
  rw [getPrInfo_of_miss _ _ _ _ hmiss]
  unfold getPrInfoMiss
  dsimp only
  rw [hparse]
  simp only [hnn, Bool.false_eq_true, if_false]
  rcases hmf with h | ⟨cjs, ha, hbad⟩ | h
  · rw [h]
  · rw [ha]
    dsimp only
    rw [extractCommits_none_of_missing _ cjs hbad]
  · cases ha : asArr (jKey (jIdx j 0) "commits".toList) with
    | none => rfl
    | some cjs =>
      dsimp only
      cases hx : extractCommits (jToString (jKey (jIdx j 0) "number".toList)) cjs with
      | none => rfl
      | some cis =>
        dsimp only
        cases h1 : asStr (jKey (jIdx j 0) "title".toList) <;>
          cases h2 : asStr (jKey (jIdx j 0) "body".toList) <;>
          cases h3 : asStr (jKey (jKey (jIdx j 0) "author".toList) "login".toList) <;>
          cases h4 : asStr (jKey (jIdx j 0) "updatedAt".toList) <;>
          cases h5 : asStr (jKey (jIdx j 0) "mergedAt".toList) <;>
          cases h6 : asStr (jKey (jIdx j 0) "url".toList) <;>
          first
            | rfl
            | (exfalso
               rcases h with h | h | h | h | h | h <;> simp_all)

theorem c7_witness :
    lookupEntry exCache0.commits exOid = none ∧
    parseJson c7Stdout = some c7Json ∧
    isNull (jIdx c7Json 0) = false ∧
    topFieldMissing (jIdx c7Json 0) ∧
    getPrInfo exCache0 exOid exMeta (.success c7Stdout) = (exCache0, .panicked) :=
  ⟨rfl, rfl, rfl, Or.inl rfl,
    c7_missing_field_panics exCache0 exOid exMeta c7Stdout c7Json rfl rfl rfl
      (Or.inr (Or.inr (Or.inl rfl)))⟩

/-! ### Claims C8 and C9: rendering -/

def exSum1 : PrTaggedSummary :=
  ⟨"feature".toList, "f1".toList, "1".toList, "u1".toList⟩

def exSum2 : PrTaggedSummary :=
  ⟨"bugfix".toList, "f2".toList, "2".toList, "u2".toList⟩

def exGroups : List (List Char × List PrTaggedSummary) :=
  pushGroup (pushGroup [] exSum1) exSum2

/-- Claim C8 counterexample: the same grouped summaries (one feature and
one bugfix entry) rendered under two iteration orders of the tag map give
different bytes; both orders occur across runs since a HashMap's iteration
order varies per process, so two runs over the same fixed sets need not be
byte-identical.  The second conjunct records that the two orders range
over the same keys. -/
theorem c8_counterexample :
    render exGroups ["feature".toList, "bugfix".toList] [] [] ≠
      render exGroups ["bugfix".toList, "feature".toList] [] [] ∧
    ["feature".toList, "bugfix".toList].Perm ["bugfix".toList, "feature".toList] :=
  ⟨by decide, List.Perm.swap "bugfix".toList "feature".toList []⟩

/-- Claim C8 amended: the grouping-and-rendering step is deterministic
only up to the iteration order of the two hash maps: with the orders
fixed, rendering twice is byte-identical, and permuting the group order
(resp. the standalone order) merely permutes the rendered group blocks
(resp. standalone lines), leaving their multisets fixed. -/
theorem c8_render_deterministic_up_to_order
    (gs : List (List Char × List PrTaggedSummary))
    (cl : List (List Char × CommitInfo)) (o1 o2 c1 c2 : List (List Char))
    (ho : o1.Perm o2) (hc : c1.Perm c2) :
    render gs o1 cl c1 = render gs o1 cl c1 ∧
    (o1.map (renderGroup gs)).Perm (o2.map (renderGroup gs)) ∧
    (c1.map (renderOtherLine cl)).Perm (c2.map (renderOtherLine cl)) :=
  ⟨rfl, ho.map (renderGroup gs), hc.map (renderOtherLine cl)⟩

theorem c8_witness :
    (["feature".toList, "bugfix".toList].Perm ["bugfix".toList, "feature".toList]) ∧
    (([] : List (List Char)).Perm []) ∧
    (render exGroups ["feature".toList, "bugfix".toList] [] [] =
        render exGroups ["feature".toList, "bugfix".toList] [] [] ∧
      ((["feature".toList, "bugfix".toList].map (renderGroup exGroups)).Perm
        (["bugfix".toList, "feature".toList].map (renderGroup exGroups))) ∧
      ((([] : List (List Char)).map (renderOtherLine [])).Perm
        (([] : List (List Char)).map (renderOtherLine [])))) :=
  ⟨List.Perm.swap "bugfix".toList "feature".toList [], List.Perm.refl [],
    c8_render_deterministic_up_to_order exGroups []
      ["feature".toList, "bugfix".toList] ["bugfix".toList, "feature".toList] [] []
      (List.Perm.swap "bugfix".toList "feature".toList []) (List.Perm.refl [])⟩

/-- Claim C9: a tagged summary whose tag is the empty string, or whose tag
starts with a character wider than one byte, makes the heading
capitalization at main.rs line 232 panic — the unwrap of chars().next()
on the empty string, or the byte slice at index 1 inside the first
character — so rendering aborts wherever that tag occurs in the group
iteration order: no group is rendered and no error line is produced. -/
theorem c9_heading_capitalization_panics (t : List Char)
    (h : t = [] ∨ ∃ c r, t = c :: r ∧ c.utf8Size ≠ 1) :
    capitalizeTag t = none ∧
    ∀ gs pre rest, renderGroups gs (pre ++ t :: rest) = none := by
  have hcap : capitalizeTag t = none := by
    rcases h with rfl | ⟨c, r, rfl, hc⟩
    · rfl
    · simp [capitalizeTag, hc]
  refine ⟨hcap, ?_⟩
  intro gs pre rest
  induction pre with
  | nil =>
    have hg : renderGroup gs t = none := by
      unfold renderGroup
      rw [hcap]
    rw [List.nil_append]
    show (match renderGroup gs t, renderGroups gs rest with
      | some b, some bs => some (b ++ bs)
      | _, _ => none) = none
    rw [hg]
  | cons p ps ih =>
    rw [List.cons_append]
    show (match renderGroup gs p, renderGroups gs (ps ++ t :: rest) with
      | some b, some bs => some (b ++ bs)
      | _, _ => none) = none
    rw [ih]
    cases renderGroup gs p <;> rfl

theorem c9_witness :
    (['é'] = ([] : List Char) ∨ ∃ c r, ['é'] = c :: r ∧ c.utf8Size ≠ 1) ∧
    (capitalizeTag ['é'] = none ∧
      ∀ gs pre rest, renderGroups gs (pre ++ ['é'] :: rest) = none) :=
  ⟨Or.inr ⟨'é', [], rfl, by decide⟩,
    c9_heading_capitalization_panics ['é'] (Or.inr ⟨'é', [], rfl, by decide⟩)⟩

end GitGlance
